import Mathlib

/-!
A shallow embedding of the character-level RNN name-generation notebook
`char_rnn_generation_tutorial.ipynb`.  Strings are modelled as `List Char`,
tensors as (nested) lists of rationals; the batch dimension of size one that
every tensor in the notebook carries is dropped.  The external numerical
framework is embedded as follows: linear layers are explicit
weight-matrix/bias pairs over `ℚ`; the stochastic dropout layer is an
elementwise product with an abstract mask vector (one mask per step); the
`LogSoftmax` activation, whose values are irrational, is an abstract function
`lsm` on vectors; the automatic-differentiation engine is abstracted by
taking the gradient vector produced by the single `backward` call as an
argument of the parameter-update step.
-/

namespace CharRNN

/-- The notebook alphabet: `string.ascii_letters` followed by space, period,
comma, semicolon, apostrophe (code point 39) and hyphen. -/
def all_letters : List Char :=
  "abcdefghijklmnopqrstuvwxyzABCDEFGHIJKLMNOPQRSTUVWXYZ".toList ++
    [' ', '.', ',', ';', Char.ofNat 39, '-']

/-- `n_letters = len(all_letters) + 1`, the extra slot being the EOS marker. -/
def n_letters : ℕ := all_letters.length + 1

/-- Python `all_letters.find(letter)`: the index of the first occurrence of
`c` in `all_letters`, and `-1` when `c` does not occur. -/
def pyFind (c : Char) : ℤ :=
  if c ∈ all_letters then (all_letters.indexOf c : ℤ) else -1

/-- The slot of the one-hot row written by
`tensor[li][0][all_letters.find(letter)] = 1`: the find index when the letter
occurs in the alphabet, and — because the Python index `-1` denotes the last
entry of the row, which has length `n_letters` — the slot `n_letters - 1`
when it does not. -/
def oneHotSlot (c : Char) : ℕ :=
  if c ∈ all_letters then all_letters.indexOf c else n_letters - 1

/-- `unicodeToAscii`: NFD-normalise, then keep exactly the characters that
are not in Unicode category Mn and are in `all_letters`.  The Unicode tables
live in the external `unicodedata` module, so the normalisation `nfd` and the
combining-mark test `isMn` are parameters of the embedding. -/
def unicodeToAscii (nfd : List Char → List Char) (isMn : Char → Bool)
    (s : List Char) : List Char :=
  (nfd s).filter (fun c => !(isMn c) && all_letters.contains c)

/-- Python whitespace for `str.strip`: space, tab, newline, carriage return,
vertical tab (11), form feed (12). -/
def pyIsSpace (c : Char) : Bool :=
  c == ' ' || c == '\t' || c == '\n' || c == '\r' ||
    c == Char.ofNat 11 || c == Char.ofNat 12

/-- Python `str.strip()`: drop whitespace from both ends. -/
def pyStrip (l : List Char) : List Char :=
  ((l.dropWhile pyIsSpace).reverse.dropWhile pyIsSpace).reverse

/-- `readLines`: read a file, strip it, split at newlines and ASCII-convert
each line.  The file is given by its text content. -/
def readLines (nfd : List Char → List Char) (isMn : Char → Bool)
    (content : List Char) : List (List Char) :=
  ((pyStrip content).splitOn '\n').map (unicodeToAscii nfd isMn)

/-- The message of the `RuntimeError` raised when no data file is found. -/
def dataNotFoundMsg : String :=
  "Data not found. Make sure that you downloaded data from https://download.pytorch.org/tutorial/data.zip and extract it to the current directory."

/-- The data-loading cell.  `glob`, `basename` and `splitext` act on the file
system, so a file is given here by the category name derived from its path
together with its text content; the cell builds `all_categories` and the
dictionary `category_lines` (an association list) and raises — `Except.error`
— exactly when no file matched the glob pattern. -/
def loadData (nfd : List Char → List Char) (isMn : Char → Bool)
    (files : List (String × List Char)) :
    Except String (List String × List (String × List (List Char))) :=
  let all_categories := files.map Prod.fst
  let category_lines := files.map (fun f => (f.1, readLines nfd isMn f.2))
  if all_categories.length = 0 then Except.error dataNotFoundMsg
  else Except.ok (all_categories, category_lines)

/-- `categoryTensor`: a zero row of length `n_categories` with a `1` written
at `all_categories.index(category)`; the batch dimension of size one is
dropped. -/
def categoryTensor (all_categories : List String) (category : String) : List ℚ :=
  (List.replicate all_categories.length 0).set (all_categories.indexOf category) 1

/-- One row of `inputTensor`: a zero row of length `n_letters` with a `1`
written at slot `oneHotSlot letter`. -/
def oneHotRow (c : Char) : List ℚ :=
  (List.replicate n_letters 0).set (oneHotSlot c) 1

/-- `inputTensor`: one one-hot row per letter of the line; the middle
dimension of size one is dropped. -/
def inputTensor (line : List Char) : List (List ℚ) := line.map oneHotRow

/-- `targetTensor`: `all_letters.find` of the second to last letters,
followed by the EOS index `n_letters - 1`. -/
def targetTensor (line : List Char) : List ℤ :=
  (line.drop 1).map pyFind ++ [(n_letters : ℤ) - 1]

/-- The parameters of the notebook RNN: hidden size and the three linear
layers `i2h`, `i2o`, `o2o`, each a weight matrix with a bias vector. -/
structure RNNParams where
  hidden_size : ℕ
  i2hW : List (List ℚ)
  i2hB : List ℚ
  i2oW : List (List ℚ)
  i2oB : List ℚ
  o2oW : List (List ℚ)
  o2oB : List ℚ

/-- Dot product of two rational vectors. -/
def dot (x y : List ℚ) : ℚ := (List.zipWith (· * ·) x y).sum

/-- `nn.Linear`: `x ↦ W x + b`, one output coordinate per weight row. -/
def linear (W : List (List ℚ)) (b : List ℚ) (x : List ℚ) : List ℚ :=
  List.zipWith (fun row bi => dot row x + bi) W b

/-- `RNN.forward`: concatenate `(category, input, hidden)`, compute the new
hidden state with `i2h` and the output with `i2o`, concatenate
`(hidden, output)`, pass through `o2o`, dropout (elementwise product with the
mask) and `LogSoftmax` (the abstract `lsm`); returns `(output, hidden)`. -/
def forward (p : RNNParams) (lsm : List ℚ → List ℚ) (mask : List ℚ)
    (category input hidden : List ℚ) : List ℚ × List ℚ :=
  let input_combined := category ++ input ++ hidden
  let hidden2 := linear p.i2hW p.i2hB input_combined
  let output1 := linear p.i2oW p.i2oB input_combined
  let output_combined := hidden2 ++ output1
  let output2 := linear p.o2oW p.o2oB output_combined
  let output3 := List.zipWith (· * ·) mask output2
  (lsm output3, hidden2)

/-- `RNN.initHidden`: the all-zeros hidden state of length `hidden_size`. -/
def initHidden (p : RNNParams) : List ℚ := List.replicate p.hidden_size 0

/-- `nn.NLLLoss()` on a single-row batch of log-probabilities: minus the
entry of the output row selected by the target index. -/
def nllLoss (output : List ℚ) (target : ℤ) : ℚ := -(output.getD target.toNat 0)

/-- `learning_rate = 0.0005`. -/
def learning_rate : ℚ := 5 / 10000

/-- The parameter-update loop of `train`:
`p.data.add_(-learning_rate, p.grad.data)` over all parameters, i.e.
`p ↦ p + (-learning_rate) * grad p` coordinatewise; the gradients were
produced by the single `loss.backward()` call of the external autograd
engine, hence they are an argument here. -/
def updateParams (params grads : List ℚ) : List ℚ :=
  List.zipWith (fun x g => x + -learning_rate * g) params grads

/-- The loop of `train`: one `forward` step per input row, threading the
hidden state, accumulating `loss`, remembering the last `output`; `k` is the
step index (selecting the dropout mask of that step) and the final `ℕ`
counts the `forward` calls made. -/
def trainGo (p : RNNParams) (lsm : List ℚ → List ℚ) (masks : ℕ → List ℚ)
    (category : List ℚ) (targets : List ℤ) :
    List (List ℚ) → ℕ → List ℚ → List ℚ → ℚ → ℕ → List ℚ × ℚ × ℕ
  | [], _, _, out, loss, n => (out, loss, n)
  | inp :: rest, k, hidden, _, loss, n =>
    let r := forward p lsm (masks k) category inp hidden
    trainGo p lsm masks category targets rest (k + 1) r.2 r.1
      (loss + nllLoss r.1 (targets.getD k 0)) (n + 1)

/-- `train`: run the loop from `initHidden` with `loss = 0`, then return the
last output together with the accumulated loss divided by the number of
input rows; the `forward`-call count is passed through. -/
def train (p : RNNParams) (lsm : List ℚ → List ℚ) (masks : ℕ → List ℚ)
    (category : List ℚ) (input_line : List (List ℚ)) (target_line : List ℤ) :
    (List ℚ × ℚ) × ℕ :=
  let r := trainGo p lsm masks category target_line input_line 0 (initHidden p) [] 0 0
  ((r.1, r.2.1 / (input_line.length : ℚ)), r.2.2)

/-- `max_length = 20`. -/
def max_length : ℕ := 20

/-- Helper for `argmax`: best index so far, best value so far. -/
def argmaxGo : List ℚ → ℕ → ℕ → ℚ → ℕ
  | [], _, bi, _ => bi
  | x :: xs, i, bi, bv =>
    if bv < x then argmaxGo xs (i + 1) i x else argmaxGo xs (i + 1) bi bv

/-- `output.topk(1)` index: first occurrence of the maximum of the list
(`0` on the empty list). -/
def argmax : List ℚ → ℕ
  | [] => 0
  | x :: xs => argmaxGo xs 1 0 x

/-- The sampling loop of `sample`: at most `fuel` iterations; each iteration
runs `forward` on the current input row and hidden state, takes the top index
of the output, stops (returning the name built so far) on the EOS index, and
otherwise appends the letter at that index of `all_letters` and feeds its
one-hot row and the new hidden state to the next iteration.  `i` is the
iteration index (selecting the dropout mask of that iteration). -/
def sampleLoop (p : RNNParams) (lsm : List ℚ → List ℚ) (masks : ℕ → List ℚ)
    (category : List ℚ) : ℕ → ℕ → List ℚ → List ℚ → List Char → List Char
  | 0, _, _, _, acc => acc
  | fuel + 1, i, inp, hidden, acc =>
    let r := forward p lsm (masks i) category inp hidden
    let topi := argmax r.1
    if topi = n_letters - 1 then acc
    else
      let letter := all_letters.getD topi (Char.ofNat 0)
      sampleLoop p lsm masks category fuel (i + 1) (oneHotRow letter) r.2
        (acc ++ [letter])

/-- `sample`: build the category tensor, start from `input[0]` of the
one-letter line of the start letter, the all-zeros hidden state and the name
consisting of the start letter, and run the sampling loop for at most
`max_length` iterations. -/
def sample (p : RNNParams) (lsm : List ℚ → List ℚ) (masks : ℕ → List ℚ)
    (all_categories : List String) (category : String) (start_letter : Char) :
    List Char :=
  sampleLoop p lsm masks (categoryTensor all_categories category) max_length 0
    ((inputTensor [start_letter]).getD 0 []) (initHidden p) [start_letter]

/-- Specification-side description of the greedy generation, following the
claim wording: at each of at most `fuel` steps feed the current letter,
category and hidden state to the network, take the highest-output index, stop
on the EOS index `n_letters - 1`, otherwise emit the letter at that index of
`all_letters` and continue with it as the next input. -/
def sampleSpecGen (p : RNNParams) (lsm : List ℚ → List ℚ) (masks : ℕ → List ℚ)
    (category : List ℚ) : ℕ → ℕ → List ℚ → List ℚ → List Char
  | 0, _, _, _ => []
  | fuel + 1, i, inp, hidden =>
    let r := forward p lsm (masks i) category inp hidden
    let topi := argmax r.1
    if topi = n_letters - 1 then []
    else
      let letter := all_letters.getD topi (Char.ofNat 0)
      letter :: sampleSpecGen p lsm masks category fuel (i + 1) (oneHotRow letter) r.2

/-- Specification-side description of `sample`: the start letter followed by
the letters the greedy loop emits, starting from the one-hot row of the start
letter and the all-zeros hidden state. -/
def sampleSpec (p : RNNParams) (lsm : List ℚ → List ℚ) (masks : ℕ → List ℚ)
    (all_categories : List String) (category : String) (start_letter : Char) :
    List Char :=
  start_letter ::
    sampleSpecGen p lsm masks (categoryTensor all_categories category) max_length 0
      (oneHotRow start_letter) (initHidden p)

/-- The hidden state before step `k` of the training loop, as an indexed
recurrence: zeros at step `0`, and at step `k + 1` the hidden component of
`forward` applied to input row `k` and the hidden state before step `k`. -/
def hiddenAt (p : RNNParams) (lsm : List ℚ → List ℚ) (masks : ℕ → List ℚ)
    (category : List ℚ) (inputs : List (List ℚ)) : ℕ → List ℚ
  | 0 => initHidden p
  | k + 1 =>
    (forward p lsm (masks k) category (inputs.getD k [])
      (hiddenAt p lsm masks category inputs k)).2

/-- The output of step `k` of the training loop, as an indexed recurrence. -/
def outputAt (p : RNNParams) (lsm : List ℚ → List ℚ) (masks : ℕ → List ℚ)
    (category : List ℚ) (inputs : List (List ℚ)) (k : ℕ) : List ℚ :=
  (forward p lsm (masks k) category (inputs.getD k [])
    (hiddenAt p lsm masks category inputs k)).1

/-- The hidden states passed to the successive `forward` calls of the
training loop (mirrors the recursion of `trainGo`). -/
def trainHiddensGo (p : RNNParams) (lsm : List ℚ → List ℚ) (masks : ℕ → List ℚ)
    (category : List ℚ) : List (List ℚ) → ℕ → List ℚ → List (List ℚ)
  | [], _, _ => []
  | inp :: rest, k, hidden =>
    hidden :: trainHiddensGo p lsm masks category rest (k + 1)
      (forward p lsm (masks k) category inp hidden).2

/-- The hidden states passed to the successive `forward` calls of `train`,
starting from `initHidden`. -/
def trainHiddens (p : RNNParams) (lsm : List ℚ → List ℚ) (masks : ℕ → List ℚ)
    (category : List ℚ) (inputs : List (List ℚ)) : List (List ℚ) :=
  trainHiddensGo p lsm masks category inputs 0 (initHidden p)

/-- A tiny concrete parameter assignment (hidden size one), used to
instantiate theorems on concrete inputs. -/
def demoParams : RNNParams :=
  ⟨1, [[1]], [0], [[1]], [0], [[1]], [0]⟩

/-! Helper lemmas about `List.getD`. -/

theorem getD_set_self {α : Type} (d v : α) (l : List α) :
    ∀ i : ℕ, i < l.length → (l.set i v).getD i d = v := by
  induction l with
  | nil => intro i h; simp at h
  | cons a t ih =>
    intro i h
    cases i with
    | zero => rfl
    | succ j => simpa using ih j (by simpa using h)

theorem getD_set_ne {α : Type} (d v : α) (l : List α) :
    ∀ i j : ℕ, i ≠ j → (l.set i v).getD j d = l.getD j d := by
  induction l with
  | nil => intro i j _; simp
  | cons a t ih =>
    intro i j hij
    cases i with
    | zero =>
      cases j with
      | zero => exact absurd rfl hij
      | succ j2 => simp
    | succ i2 =>
      cases j with
      | zero => simp
      | succ j2 => simpa using ih i2 j2 (by omega)

theorem getD_replicate {α : Type} (d v : α) :
    ∀ n j : ℕ, j < n → (List.replicate n v).getD j d = v := by
  intro n
  induction n with
  | zero => intro j h; omega
  | succ m ih =>
    intro j h
    cases j with
    | zero => rfl
    | succ j2 =>
      rw [List.replicate_succ]
      simpa using ih j2 (by omega)

theorem getD_zipWith {α : Type} (d : α) (f : α → α → α) :
    ∀ (xs ys : List α) (i : ℕ), i < xs.length → i < ys.length →
      (List.zipWith f xs ys).getD i d = f (xs.getD i d) (ys.getD i d) := by
  intro xs
  induction xs with
  | nil => intro ys i h _; simp at h
  | cons x xt ih =>
    intro ys i h1 h2
    cases ys with
    | nil => simp at h2
    | cons y yt =>
      cases i with
      | zero => rfl
      | succ j => simpa using ih yt j (by simpa using h1) (by simpa using h2)

/-- Claim C10: every character of the output of `unicodeToAscii` is a member
of `all_letters`, and `unicodeToAscii` is idempotent.  The hypothesis on the
abstract NFD normalisation states the defining property of NFD on strings
that are already plain ASCII letters and punctuation: such strings are
NFD-fixed. -/
theorem unicodeToAscii_mem_and_idempotent
    (nfd : List Char → List Char) (isMn : Char → Bool) (s : List Char)
    (hnfd : ∀ t : List Char, (∀ c ∈ t, c ∈ all_letters) → nfd t = t) :
    (∀ c ∈ unicodeToAscii nfd isMn s, c ∈ all_letters) ∧
      unicodeToAscii nfd isMn (unicodeToAscii nfd isMn s) =
        unicodeToAscii nfd isMn s := by
  have hmem : ∀ c ∈ unicodeToAscii nfd isMn s, c ∈ all_letters := by
    intro c hc
    have h2 := (List.mem_filter.1 hc).2
    have h3 : all_letters.contains c = true := by
      cases hb : isMn c
      · simpa [hb] using h2
      · simp [hb] at h2
    simpa using h3
  refine ⟨hmem, ?_⟩
  have hfix : nfd (unicodeToAscii nfd isMn s) = unicodeToAscii nfd isMn s :=
    hnfd _ hmem
  show (nfd (unicodeToAscii nfd isMn s)).filter _ = _
  rw [hfix]
  apply List.filter_eq_self.2
  intro a ha
  exact (List.mem_filter.1 ha).2

/-- Witness for C10 at the NFD-invariant instance `nfd = id`,
`isMn c = false`, on a concrete string. -/
theorem unicodeToAscii_mem_and_idempotent_witness :
    (∀ t : List Char, (∀ c ∈ t, c ∈ all_letters) → id t = t) ∧
      ((∀ c ∈ unicodeToAscii id (fun _ => false) "O Neal 123".toList,
          c ∈ all_letters) ∧
        unicodeToAscii id (fun _ => false)
            (unicodeToAscii id (fun _ => false) "O Neal 123".toList) =
          unicodeToAscii id (fun _ => false) "O Neal 123".toList) :=
  ⟨fun _ _ => rfl,
    unicodeToAscii_mem_and_idempotent id (fun _ => false) "O Neal 123".toList
      (fun _ _ => rfl)⟩

/-- Claim C5: for a category present in `all_categories`, `categoryTensor`
is a one-hot row of length `n_categories`: `1` at the index of the category,
`0` everywhere else. -/
theorem categoryTensor_one_hot (all_categories : List String) (category : String)
    (h : category ∈ all_categories) :
    (categoryTensor all_categories category).length = all_categories.length ∧
      ∀ j : ℕ, j < all_categories.length →
        (categoryTensor all_categories category).getD j 0 =
          if j = all_categories.indexOf category then 1 else 0 := by
  have hidx : all_categories.indexOf category < all_categories.length :=
    List.indexOf_lt_length.2 h
  constructor
  · simp [categoryTensor]
  · intro j hj
    by_cases hje : j = all_categories.indexOf category
    · subst hje
      rw [if_pos rfl]
      exact getD_set_self 0 1 _ _ (by simpa using hidx)
    · rw [if_neg hje, categoryTensor, getD_set_ne 0 1 _ _ _ (fun e => hje e.symm)]
      exact getD_replicate 0 0 _ _ hj

/-- Witness for C5 on a concrete category list. -/
theorem categoryTensor_one_hot_witness :
    ("German" : String) ∈ ["English", "German"] ∧
      ((categoryTensor ["English", "German"] "German").length =
          (["English", "German"] : List String).length ∧
        ∀ j : ℕ, j < (["English", "German"] : List String).length →
          (categoryTensor ["English", "German"] "German").getD j 0 =
            if j = (["English", "German"] : List String).indexOf ("German") then 1
            else 0) :=
  ⟨by simp, categoryTensor_one_hot ["English", "German"] "German" (by simp)⟩

/-- Claim C4: the parameter update of `train` is plain gradient descent with
`learning_rate = 0.0005`: coordinatewise `p - learning_rate * grad p`, and
nothing else (the update has the same length as the parameter vector and
every coordinate follows that formula). -/
theorem updateParams_gradient_descent (params grads : List ℚ)
    (hlen : params.length = grads.length) :
    learning_rate = 5 / 10000 ∧
      (updateParams params grads).length = params.length ∧
      ∀ i : ℕ, i < params.length →
        (updateParams params grads).getD i 0 =
          params.getD i 0 - learning_rate * grads.getD i 0 := by
  refine ⟨rfl, ?_, ?_⟩
  · simp [updateParams, hlen]
  · intro i hi
    rw [updateParams, getD_zipWith 0 _ params grads i hi (hlen ▸ hi)]
    ring

/-- Witness for C4 on concrete parameter and gradient vectors. -/
theorem updateParams_gradient_descent_witness :
    ([4, 8] : List ℚ).length = ([2000, 10000] : List ℚ).length ∧
      (learning_rate = 5 / 10000 ∧
        (updateParams [4, 8] [2000, 10000]).length = ([4, 8] : List ℚ).length ∧
        ∀ i : ℕ, i < ([4, 8] : List ℚ).length →
          (updateParams [4, 8] [2000, 10000]).getD i 0 =
            ([4, 8] : List ℚ).getD i 0 -
              learning_rate * ([2000, 10000] : List ℚ).getD i 0) :=
  ⟨rfl, updateParams_gradient_descent [4, 8] [2000, 10000] rfl⟩

theorem getD_map {α β : Type} (d0 : α) (d : β) (f : α → β) :
    ∀ (l : List α) (i : ℕ), i < l.length → (l.map f).getD i d = f (l.getD i d0) := by
  intro l
  induction l with
  | nil => intro i h; simp at h
  | cons a t ih =>
    intro i h
    cases i with
    | zero => rfl
    | succ j => simpa using ih j (by simpa using h)

theorem getD_mem {α : Type} (d : α) :
    ∀ (l : List α) (i : ℕ), i < l.length → l.getD i d ∈ l := by
  intro l
  induction l with
  | nil => intro i h; simp at h
  | cons a t ih =>
    intro i h
    cases i with
    | zero => simp
    | succ j =>
      simp only [List.getD_cons_succ]
      exact List.mem_cons_of_mem a (ih j (by simpa using h))

/-- Claim C2: on a non-empty line over the alphabet, `targetTensor` has
length `len(line)`, its first `len(line) - 1` entries are the indexes in
`all_letters` of the second to the last letter, and its final entry is the
EOS index `n_letters - 1`. -/
theorem targetTensor_spec (line : List Char) (h1 : line ≠ [])
    (h2 : ∀ c ∈ line, c ∈ all_letters) :
    targetTensor line =
        (line.drop 1).map (fun c => (all_letters.indexOf c : ℤ)) ++
          [(n_letters : ℤ) - 1] ∧
      (targetTensor line).length = line.length := by
  have hmap : (line.drop 1).map pyFind =
      (line.drop 1).map (fun c => (all_letters.indexOf c : ℤ)) := by
    apply List.map_congr_left
    intro a ha
    have ham : a ∈ line := List.drop_subset 1 line ha
    simp [pyFind, h2 a ham]
  constructor
  · rw [targetTensor, hmap]
  · rw [targetTensor]
    have hpos : 0 < line.length := List.length_pos.2 h1
    simp only [List.length_append, List.length_map, List.length_drop,
      List.length_singleton]
    omega

/-- Witness for C2 on the concrete line `Ab`. -/
theorem targetTensor_spec_witness :
    (['A', 'b'] : List Char) ≠ [] ∧
      (∀ c ∈ (['A', 'b'] : List Char), c ∈ all_letters) ∧
      (targetTensor ['A', 'b'] =
          ((['A', 'b'] : List Char).drop 1).map
              (fun c => (all_letters.indexOf c : ℤ)) ++
            [(n_letters : ℤ) - 1] ∧
        (targetTensor ['A', 'b']).length = (['A', 'b'] : List Char).length) :=
  ⟨by simp, by decide, targetTensor_spec ['A', 'b'] (by simp) (by decide)⟩

/-- Claim C6: on a line over the alphabet, `inputTensor` has one row per
letter of the line, and the row at each position is one-hot of length
`n_letters`, with its single `1` at the index in `all_letters` of the letter
at that position. -/
theorem inputTensor_one_hot (line : List Char)
    (h : ∀ c ∈ line, c ∈ all_letters) :
    (inputTensor line).length = line.length ∧
      ∀ li : ℕ, li < line.length →
        ((inputTensor line).getD li []).length = n_letters ∧
        ∀ j : ℕ, j < n_letters →
          ((inputTensor line).getD li []).getD j 0 =
            if j = all_letters.indexOf (line.getD li (Char.ofNat 0)) then 1
            else 0 := by
  constructor
  · simp [inputTensor]
  · intro li hli
    have hrow : (inputTensor line).getD li [] =
        oneHotRow (line.getD li (Char.ofNat 0)) :=
      getD_map (Char.ofNat 0) [] oneHotRow line li hli
    have hc : line.getD li (Char.ofNat 0) ∈ all_letters :=
      h _ (getD_mem (Char.ofNat 0) line li hli)
    have hslot : oneHotSlot (line.getD li (Char.ofNat 0)) =
        all_letters.indexOf (line.getD li (Char.ofNat 0)) := by
      simp only [oneHotSlot]
      rw [if_pos hc]
    have hidx : all_letters.indexOf (line.getD li (Char.ofNat 0)) < n_letters := by
      have := List.indexOf_lt_length.2 hc
      simp only [n_letters]
      omega
    rw [hrow]
    constructor
    · simp [oneHotRow]
    · intro j hj
      by_cases hje : j = all_letters.indexOf (line.getD li (Char.ofNat 0))
      · subst hje
        rw [if_pos rfl, oneHotRow, hslot]
        exact getD_set_self 0 1 _ _ (by simpa using hidx)
      · rw [if_neg hje, oneHotRow, hslot,
          getD_set_ne 0 1 _ _ _ (fun e => hje e.symm)]
        exact getD_replicate 0 0 _ _ (by simpa using hj)

/-- Witness for C6 on the concrete line `Ab`. -/
theorem inputTensor_one_hot_witness :
    (∀ c ∈ (['A', 'b'] : List Char), c ∈ all_letters) ∧
      ((inputTensor ['A', 'b']).length = (['A', 'b'] : List Char).length ∧
        ∀ li : ℕ, li < (['A', 'b'] : List Char).length →
          ((inputTensor ['A', 'b']).getD li []).length = n_letters ∧
          ∀ j : ℕ, j < n_letters →
            ((inputTensor ['A', 'b']).getD li []).getD j 0 =
              if j = all_letters.indexOf
                  ((['A', 'b'] : List Char).getD li (Char.ofNat 0)) then 1
              else 0) :=
  ⟨by decide, inputTensor_one_hot ['A', 'b'] (by decide)⟩

theorem sampleLoop_eq_append (p : RNNParams) (lsm : List ℚ → List ℚ)
    (masks : ℕ → List ℚ) (category : List ℚ) :
    ∀ (fuel i : ℕ) (inp hidden : List ℚ) (acc : List Char),
      sampleLoop p lsm masks category fuel i inp hidden acc =
        acc ++ sampleSpecGen p lsm masks category fuel i inp hidden := by
  intro fuel
  induction fuel with
  | zero => intro i inp hidden acc; simp [sampleLoop, sampleSpecGen]
  | succ f ih =>
    intro i inp hidden acc
    simp only [sampleLoop, sampleSpecGen]
    by_cases htop :
        argmax (forward p lsm (masks i) category inp hidden).1 = n_letters - 1
    · rw [if_pos htop, if_pos htop]
      simp
    · rw [if_neg htop, if_neg htop, ih]
      simp

theorem sampleSpecGen_length (p : RNNParams) (lsm : List ℚ → List ℚ)
    (masks : ℕ → List ℚ) (category : List ℚ) :
    ∀ (fuel i : ℕ) (inp hidden : List ℚ),
      (sampleSpecGen p lsm masks category fuel i inp hidden).length ≤ fuel := by
  intro fuel
  induction fuel with
  | zero => intro i inp hidden; simp [sampleSpecGen]
  | succ f ih =>
    intro i inp hidden
    simp only [sampleSpecGen]
    by_cases htop :
        argmax (forward p lsm (masks i) category inp hidden).1 = n_letters - 1
    · rw [if_pos htop]
      simp
    · rw [if_neg htop]
      simp only [List.length_cons]
      exact Nat.succ_le_succ (ih _ _ _)

/-- Claim C1: for a category of `all_categories` and a single start letter,
`sample` is exactly the greedy character-by-character generation described by
the specification-side `sampleSpec`: at each of at most `max_length` steps
the current letter (one-hot), the category tensor and the hidden state are
fed to the network, the index of the highest output is taken, the loop stops
without appending on the EOS index `n_letters - 1`, and otherwise the letter
at that index of `all_letters` is appended and becomes the next input; the
accumulated string is returned. -/
theorem sample_eq_sampleSpec (p : RNNParams) (lsm : List ℚ → List ℚ)
    (masks : ℕ → List ℚ) (all_categories : List String) (category : String)
    (start_letter : Char) (h : category ∈ all_categories) :
    sample p lsm masks all_categories category start_letter =
      sampleSpec p lsm masks all_categories category start_letter := by
  rw [sample, sampleSpec, sampleLoop_eq_append]
  rfl

/-- Witness for C1 at concrete network parameters, with the identity as the
`LogSoftmax` abstraction and empty dropout masks. -/
theorem sample_eq_sampleSpec_witness :
    ("Scottish" : String) ∈ ["Scottish"] ∧
      sample demoParams id (fun _ => []) ["Scottish"] "Scottish" 'A' =
        sampleSpec demoParams id (fun _ => []) ["Scottish"] "Scottish" 'A' :=
  ⟨by simp,
    sample_eq_sampleSpec demoParams id (fun _ => []) ["Scottish"] "Scottish" 'A'
      (by simp)⟩

/-- Claim C8: the sampling loop is bounded by `max_length = 20` iterations
(the loop of the embedding is fuel-bounded by `max_length`, so `sample` is a
total function), and `sample` returns a name that begins with the start
letter and has length at least `1` and at most `max_length + 1 = 21`. -/
theorem sample_terminates_bounded (p : RNNParams) (lsm : List ℚ → List ℚ)
    (masks : ℕ → List ℚ) (all_categories : List String) (category : String)
    (start_letter : Char) (h : category ∈ all_categories) :
    max_length = 20 ∧
      1 ≤ (sample p lsm masks all_categories category start_letter).length ∧
      (sample p lsm masks all_categories category start_letter).length ≤
        max_length + 1 ∧
      (sample p lsm masks all_categories category start_letter).getD 0
        (Char.ofNat 0) = start_letter := by
  have he : sample p lsm masks all_categories category start_letter =
      start_letter ::
        sampleSpecGen p lsm masks (categoryTensor all_categories category)
          max_length 0 ((inputTensor [start_letter]).getD 0 []) (initHidden p) := by
    rw [sample, sampleLoop_eq_append]
    rfl
  refine ⟨rfl, ?_, ?_, ?_⟩
  · rw [he]
    simp
  · rw [he]
    simp only [List.length_cons]
    have hlen := sampleSpecGen_length p lsm masks
      (categoryTensor all_categories category) max_length 0
      ((inputTensor [start_letter]).getD 0 []) (initHidden p)
    omega
  · rw [he]
    rfl

/-- Witness for C8 at concrete network parameters. -/
theorem sample_terminates_bounded_witness :
    ("Scottish" : String) ∈ ["Scottish"] ∧
      (max_length = 20 ∧
        1 ≤ (sample demoParams id (fun _ => []) ["Scottish"] "Scottish" 'B').length ∧
        (sample demoParams id (fun _ => []) ["Scottish"] "Scottish" 'B').length ≤
          max_length + 1 ∧
        (sample demoParams id (fun _ => []) ["Scottish"] "Scottish" 'B').getD 0
          (Char.ofNat 0) = 'B') :=
  ⟨by simp,
    sample_terminates_bounded demoParams id (fun _ => []) ["Scottish"] "Scottish"
      'B' (by simp)⟩

theorem getD_of_drop_cons {α : Type} (d : α) (l : List α) (j : ℕ) (a : α)
    (t : List α) (h : l.drop j = a :: t) : l.getD j d = a := by
  have h0 : l[j]? = some a := by
    have := List.getElem?_drop l j 0
    rw [h] at this
    simpa using this.symm
  simp [List.getD_eq_getElem?_getD, h0]

theorem drop_succ_of_drop_cons {α : Type} (l : List α) (j : ℕ) (a : α)
    (t : List α) (h : l.drop j = a :: t) : l.drop (j + 1) = t := by
  rw [← List.drop_drop]
  rw [h]
  rfl

theorem trainGo_spec (p : RNNParams) (lsm : List ℚ → List ℚ)
    (masks : ℕ → List ℚ) (category : List ℚ) (targets : List ℤ)
    (inputs : List (List ℚ)) :
    ∀ (rest : List (List ℚ)) (j : ℕ), rest = inputs.drop j →
      ∀ (out : List ℚ) (loss : ℚ) (n : ℕ),
        trainGo p lsm masks category targets rest j
            (hiddenAt p lsm masks category inputs j) out loss n =
          ((if rest = [] then out
            else outputAt p lsm masks category inputs (inputs.length - 1)),
           loss + (((List.range' j rest.length).map fun k =>
             nllLoss (outputAt p lsm masks category inputs k)
               (targets.getD k 0)).sum),
           n + rest.length) := by
  intro rest
  induction rest with
  | nil =>
    intro j hj out loss n
    simp [trainGo]
  | cons inp rest2 ih =>
    intro j hj out loss n
    have hget : inputs.getD j [] = inp := getD_of_drop_cons [] inputs j inp rest2 hj.symm
    have hdrop : inputs.drop (j + 1) = rest2 :=
      drop_succ_of_drop_cons inputs j inp rest2 hj.symm
    have hstep : (forward p lsm (masks j) category inp
        (hiddenAt p lsm masks category inputs j)).2 =
        hiddenAt p lsm masks category inputs (j + 1) := by
      rw [hiddenAt, hget]
    have hout : (forward p lsm (masks j) category inp
        (hiddenAt p lsm masks category inputs j)).1 =
        outputAt p lsm masks category inputs j := by
      rw [outputAt, hget]
    rw [trainGo, hstep, hout, ih (j + 1) hdrop.symm]
    have hlen : inputs.length - j = rest2.length + 1 := by
      have := congrArg List.length hj
      simp only [List.length_drop, List.length_cons] at this
      omega
    simp only [Prod.mk.injEq, List.length_cons]
    refine ⟨?_, ?_, ?_⟩
    · rw [if_neg (List.cons_ne_nil inp rest2)]
      by_cases h2 : rest2 = []
      · have hj1 : j = inputs.length - 1 := by
          rw [h2] at hlen
          simp only [List.length_nil] at hlen
          omega
        rw [if_pos h2, hj1]
      · rw [if_neg h2]
    · rw [List.range'_succ]
      simp only [List.map_cons, List.sum_cons]
      ring
    · omega

/-- Claim C3: on a non-empty input line, `train` performs exactly one
`forward` step (and accumulates exactly one `nllLoss` term of that step
output against that step target) per input character — the `forward`-call
count of the loop is `input_line.length` — sums these per-step losses and
returns the output of the last step together with the summed loss divided by
`input_line.length`.  The single `backward` call of the source acts on this
sum through the external autograd engine and is therefore outside the
functional embedding. -/
theorem train_per_character (p : RNNParams) (lsm : List ℚ → List ℚ)
    (masks : ℕ → List ℚ) (category : List ℚ) (input_line : List (List ℚ))
    (target_line : List ℤ) (h : input_line ≠ []) :
    train p lsm masks category input_line target_line =
      ((outputAt p lsm masks category input_line (input_line.length - 1),
        (((List.range input_line.length).map fun k =>
            nllLoss (outputAt p lsm masks category input_line k)
              (target_line.getD k 0)).sum) / (input_line.length : ℚ)),
       input_line.length) := by
  have h0 := trainGo_spec p lsm masks category target_line input_line input_line 0
    (by simp) [] 0 0
  rw [show hiddenAt p lsm masks category input_line 0 = initHidden p from rfl]
    at h0
  simp only [train, h0, if_neg h, List.range_eq_range']
  simp

/-- Witness for C3 on a concrete two-character input line. -/
theorem train_per_character_witness :
    (inputTensor ['A', 'b'] ≠ []) ∧
      train demoParams id (fun _ => [1]) [1] (inputTensor ['A', 'b'])
          (targetTensor ['A', 'b']) =
        ((outputAt demoParams id (fun _ => [1]) [1] (inputTensor ['A', 'b'])
            ((inputTensor ['A', 'b']).length - 1),
          (((List.range (inputTensor ['A', 'b']).length).map fun k =>
              nllLoss (outputAt demoParams id (fun _ => [1]) [1]
                  (inputTensor ['A', 'b']) k)
                ((targetTensor ['A', 'b']).getD k 0)).sum) /
            ((inputTensor ['A', 'b']).length : ℚ)),
         (inputTensor ['A', 'b']).length) :=
  ⟨by simp [inputTensor],
    train_per_character demoParams id (fun _ => [1]) [1] (inputTensor ['A', 'b'])
      (targetTensor ['A', 'b']) (by simp [inputTensor])⟩

theorem trainHiddensGo_spec (p : RNNParams) (lsm : List ℚ → List ℚ)
    (masks : ℕ → List ℚ) (category : List ℚ) (inputs : List (List ℚ)) :
    ∀ (rest : List (List ℚ)) (j : ℕ), rest = inputs.drop j →
      trainHiddensGo p lsm masks category rest j
          (hiddenAt p lsm masks category inputs j) =
        (List.range' j rest.length).map
          (hiddenAt p lsm masks category inputs) := by
  intro rest
  induction rest with
  | nil =>
    intro j hj
    simp [trainHiddensGo]
  | cons inp rest2 ih =>
    intro j hj
    have hget : inputs.getD j [] = inp := getD_of_drop_cons [] inputs j inp rest2 hj.symm
    have hdrop : inputs.drop (j + 1) = rest2 :=
      drop_succ_of_drop_cons inputs j inp rest2 hj.symm
    have hstep : (forward p lsm (masks j) category inp
        (hiddenAt p lsm masks category inputs j)).2 =
        hiddenAt p lsm masks category inputs (j + 1) := by
      rw [hiddenAt, hget]
    rw [trainHiddensGo, hstep, ih (j + 1) hdrop.symm]
    simp only [List.length_cons]
    rw [List.range'_succ]
    simp

/-- Claim C7: the hidden state is updated at each input step: `forward`
returns as its hidden component the `i2h` image of the concatenated
`(category, input, hidden)`; `initHidden` is the all-zeros vector; in the
training loop the hidden states passed to the successive `forward` calls are
exactly the recurrence `hiddenAt` — zeros at step `0` and, at step `k + 1`,
the hidden state returned by `forward` at step `k` — and one unrolling of
the sampling loop passes the hidden state returned by `forward` at the
current iteration to the next one, `sample` starting the loop from
`initHidden` and the name consisting of the start letter. -/
theorem hidden_state_update :
    (∀ (p : RNNParams) (lsm : List ℚ → List ℚ)
        (mask category input hidden : List ℚ),
        (forward p lsm mask category input hidden).2 =
          linear p.i2hW p.i2hB (category ++ input ++ hidden)) ∧
    (∀ p : RNNParams, initHidden p = List.replicate p.hidden_size 0) ∧
    (∀ (p : RNNParams) (lsm : List ℚ → List ℚ) (masks : ℕ → List ℚ)
        (category : List ℚ) (inputs : List (List ℚ)),
        hiddenAt p lsm masks category inputs 0 = initHidden p ∧
        (∀ k : ℕ, hiddenAt p lsm masks category inputs (k + 1) =
          (forward p lsm (masks k) category (inputs.getD k [])
            (hiddenAt p lsm masks category inputs k)).2) ∧
        trainHiddens p lsm masks category inputs =
          (List.range inputs.length).map
            (hiddenAt p lsm masks category inputs)) ∧
    (∀ (p : RNNParams) (lsm : List ℚ → List ℚ) (masks : ℕ → List ℚ)
        (category : List ℚ) (fuel i : ℕ) (inp hidden : List ℚ) (acc : List Char),
        sampleLoop p lsm masks category (fuel + 1) i inp hidden acc =
          (if argmax (forward p lsm (masks i) category inp hidden).1 =
              n_letters - 1 then acc
           else
             sampleLoop p lsm masks category fuel (i + 1)
               (oneHotRow (all_letters.getD
                 (argmax (forward p lsm (masks i) category inp hidden).1)
                 (Char.ofNat 0)))
               (forward p lsm (masks i) category inp hidden).2
               (acc ++ [all_letters.getD
                 (argmax (forward p lsm (masks i) category inp hidden).1)
                 (Char.ofNat 0)]))) ∧
    (∀ (p : RNNParams) (lsm : List ℚ → List ℚ) (masks : ℕ → List ℚ)
        (all_categories : List String) (category : String)
        (start_letter : Char),
        sample p lsm masks all_categories category start_letter =
          sampleLoop p lsm masks (categoryTensor all_categories category)
            max_length 0 ((inputTensor [start_letter]).getD 0 [])
            (initHidden p) [start_letter]) := by
  refine ⟨fun p lsm mask category input hidden => rfl, fun p => rfl,
    fun p lsm masks category inputs => ⟨rfl, fun k => rfl, ?_⟩,
    fun p lsm masks category fuel i inp hidden acc => rfl,
    fun p lsm masks all_categories category start_letter => rfl⟩
  have h0 := trainHiddensGo_spec p lsm masks category inputs inputs 0 (by simp)
  rw [show hiddenAt p lsm masks category inputs 0 = initHidden p from rfl] at h0
  rw [trainHiddens, h0, List.range_eq_range']

theorem lookup_map_readLines (nfd : List Char → List Char) (isMn : Char → Bool) :
    ∀ files : List (String × List Char), (files.map Prod.fst).Nodup →
      ∀ pr ∈ files,
        (files.map (fun f => (f.1, readLines nfd isMn f.2))).lookup pr.1 =
          some (readLines nfd isMn pr.2) := by
  intro files
  induction files with
  | nil =>
    intro _ pr hpr
    simp at hpr
  | cons f rest ih =>
    intro hnd pr hpr
    simp only [List.map_cons, List.nodup_cons] at hnd
    rcases hnd with ⟨hnotin, hnd2⟩
    rcases List.mem_cons.1 hpr with he | hm
    · subst he
      simp [List.lookup]
    · have hne : pr.1 ≠ f.1 := by
        intro he2
        exact hnotin (he2 ▸ List.mem_map_of_mem Prod.fst hm)
      have hbeq : (pr.1 == f.1) = false := beq_eq_false_iff_ne.2 hne
      simp only [List.map_cons, List.lookup, hbeq]
      exact ih hnd2 pr hm

/-- Claim C9: data loading raises the RuntimeError (here `Except.error` with
the message of the source) exactly when the glob matched no file; otherwise
`all_categories` is the non-empty list of category names and the
`category_lines` dictionary maps every category to the ASCII-converted lines
of its file.  In the repository the glob matches one directory, so the
category names are pairwise distinct — the `Nodup` hypothesis. -/
theorem loadData_spec (nfd : List Char → List Char) (isMn : Char → Bool)
    (files : List (String × List Char)) (hnd : (files.map Prod.fst).Nodup) :
    (loadData nfd isMn files = Except.error dataNotFoundMsg ↔ files = []) ∧
      (files ≠ [] →
        loadData nfd isMn files =
            Except.ok (files.map Prod.fst,
              files.map (fun f => (f.1, readLines nfd isMn f.2))) ∧
          files.map Prod.fst ≠ [] ∧
          ∀ pr ∈ files,
            (files.map (fun f => (f.1, readLines nfd isMn f.2))).lookup pr.1 =
              some (readLines nfd isMn pr.2)) := by
  constructor
  · constructor
    · intro he
      by_contra hne
      have hlen : ¬files.length = 0 := fun h0 => hne (List.length_eq_zero.1 h0)
      simp only [loadData, List.length_map] at he
      rw [if_neg hlen] at he
      exact Except.noConfusion he
    · intro he
      subst he
      rfl
  · intro hne
    have hlen : ¬files.length = 0 := fun h0 => hne (List.length_eq_zero.1 h0)
    refine ⟨?_, ?_, lookup_map_readLines nfd isMn files hnd⟩
    · simp only [loadData, List.length_map]
      rw [if_neg hlen]
    · simpa using hne

/-- Witness for C9 on a concrete one-file directory. -/
theorem loadData_spec_witness :
    (([("English", "ab\ncd".toList)] : List (String × List Char)).map
        Prod.fst).Nodup ∧
      ((loadData id (fun _ => false) [("English", "ab\ncd".toList)] =
          Except.error dataNotFoundMsg ↔
            ([("English", "ab\ncd".toList)] : List (String × List Char)) = []) ∧
        (([("English", "ab\ncd".toList)] : List (String × List Char)) ≠ [] →
          loadData id (fun _ => false) [("English", "ab\ncd".toList)] =
              Except.ok
                (([("English", "ab\ncd".toList)] :
                    List (String × List Char)).map Prod.fst,
                  ([("English", "ab\ncd".toList)] :
                      List (String × List Char)).map
                    (fun f => (f.1, readLines id (fun _ => false) f.2))) ∧
            ([("English", "ab\ncd".toList)] :
                List (String × List Char)).map Prod.fst ≠ [] ∧
            ∀ pr ∈ ([("English", "ab\ncd".toList)] :
                List (String × List Char)),
              (([("English", "ab\ncd".toList)] :
                    List (String × List Char)).map
                  (fun f => (f.1, readLines id (fun _ => false) f.2))).lookup
                  pr.1 =
                some (readLines id (fun _ => false) pr.2))) :=
  ⟨by simp,
    loadData_spec id (fun _ => false) [("English", "ab\ncd".toList)] (by simp)⟩

end CharRNN
